import Mathlib

/-!
Shallow embedding of the three self-contained utilities of the
`learn-citrination` notebooks (`AdvancedPif.ipynb` and the sequential-learning
notebook):

* `enthalpy_of_formation(energy, n_Al, n_Cu, energy_Al, energy_Cu)` —
  `(energy - n_Al * energy_Al - n_Cu * energy_Cu) / (n_Al + n_Cu)`;
* `get_stoich(AlCu_formula)` — `re.match(r"Al([0-9]*)Cu([0-9]*)", ...)`,
  returning `(0, 0)` on no match and defaulting omitted counts to `1`;
* `probability_improvement(mean, sigma, baseline)` —
  `0.5 * (1.0 + erf((mean - baseline) / (sigma * sqrt(2.0))))`;

together with the demonstration loop that filters `(0, 0)` stoichiometries
before calling `enthalpy_of_formation`.

Python float scalars are modelled by `ℝ`.  Python's `ZeroDivisionError` is
modelled by `pyDiv` returning `none`, so a fallible computation has type
`Option ℝ` and a raised fault is a `none` that propagates.
-/

open MeasureTheory intervalIntegral Real

open scoped NNReal

/-- Python float division: raises `ZeroDivisionError` (modelled as `none`) when
the divisor is zero, otherwise returns the quotient. -/
noncomputable def pyDiv (a b : ℝ) : Option ℝ :=
  if b = 0 then none else some (a / b)

/-- Embedding of `enthalpy_of_formation` from `AdvancedPif.ipynb`:
`return (energy - n_Al * energy_Al - n_Cu * energy_Cu) / (n_Al + n_Cu)`. -/
noncomputable def enthalpy_of_formation (energy n_Al n_Cu energy_Al energy_Cu : ℝ) : Option ℝ :=
  pyDiv (energy - n_Al * energy_Al - n_Cu * energy_Cu) (n_Al + n_Cu)

/-- The longest run of ASCII digits at the head of the list, paired with the
remaining characters: the deterministic behaviour of a greedy `[0-9]*` whose
regex continuation starts with a non-digit literal. -/
def digitSpan : List Char → List Char × List Char
  | [] => ([], [])
  | c :: cs =>
    if c.isDigit then
      let p := digitSpan cs
      (c :: p.1, p.2)
    else ([], c :: cs)

/-- Numeric value of a digit string, as Python's `float` computes it on the
all-digit groups captured by `[0-9]*` (always an exact integer value). -/
def digitsVal (ds : List Char) : ℕ :=
  ds.foldl (fun a c => 10 * a + (c.toNat - 48)) 0

/-- Embedding of `re.match(r"Al([0-9]*)Cu([0-9]*)", s)`: anchored at the start
of the string, matching literal `Al`, a greedy digit group, literal `Cu`, a
greedy digit group, and ignoring any remaining suffix.  Returns the two
captured groups on success.  (Since `[0-9]*` is followed by the non-digit
literal `C`, the greedy match never backtracks, so this function is the exact
match semantics of the pattern.) -/
def reMatchAlCu : List Char → Option (List Char × List Char)
  | 'A' :: 'l' :: rest =>
    match digitSpan rest with
    | (d1, r1) =>
      match r1 with
      | 'C' :: 'u' :: rest2 => some (d1, (digitSpan rest2).1)
      | _ => none
  | _ => none

/-- Embedding of `get_stoich` from `AdvancedPif.ipynb`: on no match return
`(0, 0)`; otherwise `float(group)` when the captured group is non-empty and
`1` when it is empty. -/
noncomputable def get_stoich (s : String) : ℝ × ℝ :=
  match reMatchAlCu s.data with
  | none => ((0 : ℝ), (0 : ℝ))
  | some g =>
    ((if g.1.length > 0 then ((digitsVal g.1 : ℕ) : ℝ) else 1),
     (if g.2.length > 0 then ((digitsVal g.2 : ℕ) : ℝ) else 1))

/-- Embedding of one iteration of the `AlCu_pifs` demonstration loop: read the
stoichiometry from the formula, `continue` (leave `points` unchanged) when it
is `(0, 0)`, otherwise append `(n_Cu / (n_Cu + n_Al), enthalpy_of_formation
energy n_Al n_Cu energy_Al energy_Cu)`.  A division fault in either component
propagates as `none`. -/
noncomputable def alcu_point (energy_Al energy_Cu : ℝ) (points : List (ℝ × ℝ))
    (formula : String) (energy : ℝ) : Option (List (ℝ × ℝ)) :=
  let st := get_stoich formula
  if st.1 = 0 ∧ st.2 = 0 then some points
  else
    match pyDiv st.2 (st.2 + st.1),
          enthalpy_of_formation energy st.1 st.2 energy_Al energy_Cu with
    | some x, some h => some (points ++ [(x, h)])
    | _, _ => none

/-- The Gauss error function, which the notebook imports from
`scipy.special`. -/
noncomputable def erf (x : ℝ) : ℝ :=
  2 / Real.sqrt π * ∫ t in (0 : ℝ)..x, Real.exp (-t ^ 2)

/-- Embedding of `probability_improvement` from the sequential-learning
notebook: `float(0.5 * (1.0 + erf((mean - baseline) / (sigma * sqrt(2.0)))))`.
The division is Python float division, so `sigma = 0` raises. -/
noncomputable def probability_improvement (mean sigma baseline : ℝ) : Option ℝ :=
  (pyDiv (mean - baseline) (sigma * Real.sqrt 2)).map (fun z => 0.5 * (1 + erf z))

/-- Modelled from the spec: the contract formula for the improvement
probability, `P = 0.5 * (1 + erf((mean - baseline) / (sigma * sqrt 2)))`,
written independently of the code as the comparison point for refinement. -/
noncomputable def spec_probability_of_improvement (mean sigma baseline : ℝ) : ℝ :=
  0.5 * (1 + erf ((mean - baseline) / (sigma * Real.sqrt 2)))

section ParserLemmas

/-- A greedy digit run consumes exactly an all-digit block when the remainder
starts with a non-digit (or is empty). -/
lemma digitSpan_append (d rest : List Char) (hd : ∀ c ∈ d, c.isDigit)
    (hrest : ∀ c, rest.head? = some c → c.isDigit = false) :
    digitSpan (d ++ rest) = (d, rest) := by
  induction d with
  | nil =>
    cases rest with
    | nil => rfl
    | cons c cs =>
      have hc := hrest c rfl
      simp [digitSpan, hc]
  | cons c cs ih =>
    have hc : c.isDigit := hd c (List.mem_cons_self c cs)
    have ih' := ih (fun x hx => hd x (List.mem_cons_of_mem c hx))
    simp [digitSpan, hc, ih']

/-- The anchored pattern `Al([0-9]*)Cu([0-9]*)` on a string made of `Al`, a
digit block, `Cu`, a digit block and a suffix starting with a non-digit:
the two digit blocks are captured. -/
lemma reMatchAlCu_eq (d1 d2 rest : List Char) (h1 : ∀ c ∈ d1, c.isDigit)
    (h2 : ∀ c ∈ d2, c.isDigit)
    (hrest : ∀ c, rest.head? = some c → c.isDigit = false) :
    reMatchAlCu ('A' :: 'l' :: (d1 ++ 'C' :: 'u' :: (d2 ++ rest))) = some (d1, d2) := by
  have hC : ∀ c, ('C' :: 'u' :: (d2 ++ rest)).head? = some c → c.isDigit = false := by
    intro c hc
    simp only [List.head?_cons, Option.some.injEq] at hc
    subst hc
    rfl
  have hs1 : digitSpan (d1 ++ 'C' :: 'u' :: (d2 ++ rest)) = (d1, 'C' :: 'u' :: (d2 ++ rest)) :=
    digitSpan_append d1 _ h1 hC
  have hs2 : digitSpan (d2 ++ rest) = (d2, rest) := digitSpan_append d2 rest h2 hrest
  simp [reMatchAlCu, hs1, hs2]

end ParserLemmas

/-- C1: for all real inputs with `n1 + n2 ≠ 0`, `enthalpy_of_formation`
returns `(energy - n1 * energy_1_ref - n2 * energy_2_ref) / (n1 + n2)`. -/
theorem enthalpy_of_formation_formula (energy n1 n2 e1 e2 : ℝ) (h : n1 + n2 ≠ 0) :
    enthalpy_of_formation energy n1 n2 e1 e2 =
      some ((energy - n1 * e1 - n2 * e2) / (n1 + n2)) := by
  unfold enthalpy_of_formation pyDiv
  rw [if_neg h]

/-- Witness for C1 at `energy = 10`, `n1 = n2 = 1`, references `2` and `3`. -/
theorem enthalpy_of_formation_formula_check :
    ((1 : ℝ) + 1 ≠ 0) ∧
      enthalpy_of_formation 10 1 1 2 3 = some ((10 - 1 * 2 - 1 * 3) / (1 + 1)) :=
  ⟨by norm_num, enthalpy_of_formation_formula 10 1 1 2 3 (by norm_num)⟩

/-- C4: a string whose start does not match `Al([0-9]*)Cu([0-9]*)` makes
`get_stoich` return `(0, 0)`; no fault is possible (the function is total). -/
theorem get_stoich_no_match (s : String) (h : reMatchAlCu s.data = none) :
    get_stoich s = (0, 0) := by
  unfold get_stoich
  rw [h]

/-- Witness for C4 on the spec's examples `"Fe2O3"` and the empty string. -/
theorem get_stoich_no_match_check :
    get_stoich "Fe2O3" = (0, 0) ∧ get_stoich "" = (0, 0) :=
  ⟨get_stoich_no_match "Fe2O3" (by decide), get_stoich_no_match "" (by decide)⟩

/-- C5: when `n1 + n2 = 0` the enthalpy computation divides by zero, and when
`sigma = 0` the improvement probability divides by zero; both faults propagate
(`none`) and neither function guards or catches them. -/
theorem division_by_zero_unguarded :
    (∀ energy n1 n2 e1 e2 : ℝ, n1 + n2 = 0 →
      enthalpy_of_formation energy n1 n2 e1 e2 = none) ∧
    (∀ mean baseline : ℝ, probability_improvement mean 0 baseline = none) := by
  constructor
  · intro energy n1 n2 e1 e2 h
    unfold enthalpy_of_formation pyDiv
    rw [if_pos h]
  · intro mean baseline
    unfold probability_improvement pyDiv
    simp

/-- Witness for C5 at concrete degenerate inputs. -/
theorem division_by_zero_unguarded_check :
    enthalpy_of_formation 1 0 0 1 1 = none ∧ probability_improvement 1 0 1 = none :=
  ⟨division_by_zero_unguarded.1 1 0 0 1 1 (by norm_num),
   division_by_zero_unguarded.2 1 1⟩

/-- C3 counterexample: the pattern `[0-9]*` has no decimal point, so the
fractional count in `"Al0.5Cu2"` does not match and `get_stoich` returns the
no-match sentinel `(0, 0)`, not `(0.5, 2)` as the claim would require. -/
theorem get_stoich_decimal_not_parsed :
    get_stoich "Al0.5Cu2" = (0, 0) ∧ ((0 : ℝ), (0 : ℝ)) ≠ ((0.5 : ℝ), (2 : ℝ)) := by
  constructor
  · have h : reMatchAlCu "Al0.5Cu2".data = none := by decide
    unfold get_stoich
    rw [h]
  · simp only [ne_eq, Prod.mk.injEq, not_and]
    intro h
    norm_num at h

/-- C3 amended: for formulas `"Al{a}Cu{b}"` whose counts are non-negative
integer literals (digit strings), each possibly omitted meaning `1`,
`get_stoich` returns the two counts as real numbers. -/
theorem get_stoich_integer_counts (d1 d2 : List Char)
    (h1 : ∀ c ∈ d1, c.isDigit) (h2 : ∀ c ∈ d2, c.isDigit) :
    get_stoich ⟨'A' :: 'l' :: (d1 ++ 'C' :: 'u' :: d2)⟩ =
      ((if d1.length > 0 then ((digitsVal d1 : ℕ) : ℝ) else 1),
       (if d2.length > 0 then ((digitsVal d2 : ℕ) : ℝ) else 1)) := by
  have h := reMatchAlCu_eq d1 d2 [] h1 h2 (by intro c hc; simp at hc)
  rw [List.append_nil] at h
  unfold get_stoich
  rw [h]

/-- Witness for C3's amended statement on `"Al9Cu"`. -/
theorem get_stoich_integer_counts_check : get_stoich "Al9Cu" = ((9 : ℝ), 1) := by
  have h := get_stoich_integer_counts ['9'] [] (by decide) (by decide)
  have hs : ("Al9Cu" : String) = ⟨'A' :: 'l' :: (['9'] ++ 'C' :: 'u' :: [])⟩ := by decide
  have e : digitsVal ['9'] = 9 := by decide
  rw [hs, h]
  simp [e]

/-- C8: omitted counts default to 1: `get_stoich "Al4Cu1" = (4.0, 1.0)` and
`get_stoich "AlCu" = (1.0, 1.0)`. -/
theorem get_stoich_default_counts :
    get_stoich "Al4Cu1" = ((4 : ℝ), 1) ∧ get_stoich "AlCu" = ((1 : ℝ), 1) := by
  constructor
  · have h : reMatchAlCu "Al4Cu1".data = some (['4'], ['1']) := by decide
    have e1 : digitsVal ['4'] = 4 := by decide
    have e2 : digitsVal ['1'] = 1 := by decide
    unfold get_stoich
    rw [h]
    simp [e1, e2]
  · have h : reMatchAlCu "AlCu".data = some ([], []) := by decide
    unfold get_stoich
    rw [h]
    simp

/-- C9: the match is anchored at the start but not at the end: a valid
`Al[digits]Cu[digits]` prefix followed by arbitrary non-digit-led trailing
text is parsed from the prefix and the trailing text is ignored. -/
theorem get_stoich_ignores_trailing (d1 d2 rest : List Char)
    (h1 : ∀ c ∈ d1, c.isDigit) (h2 : ∀ c ∈ d2, c.isDigit)
    (hrest : ∀ c, rest.head? = some c → c.isDigit = false) :
    get_stoich ⟨'A' :: 'l' :: (d1 ++ 'C' :: 'u' :: (d2 ++ rest))⟩ =
      ((if d1.length > 0 then ((digitsVal d1 : ℕ) : ℝ) else 1),
       (if d2.length > 0 then ((digitsVal d2 : ℕ) : ℝ) else 1)) := by
  have h := reMatchAlCu_eq d1 d2 rest h1 h2 hrest
  unfold get_stoich
  rw [h]

/-- Witness for C9 on `"AlCuO3"` and `"Al2Cu3Fe"`. -/
theorem get_stoich_ignores_trailing_check :
    get_stoich "AlCuO3" = ((1 : ℝ), 1) ∧ get_stoich "Al2Cu3Fe" = ((2 : ℝ), 3) := by
  constructor
  · have h := get_stoich_ignores_trailing [] [] ['O', '3']
      (by decide) (by decide) (by decide)
    have hs : ("AlCuO3" : String) = ⟨'A' :: 'l' :: ([] ++ 'C' :: 'u' :: ([] ++ ['O', '3']))⟩ := by
      decide
    rw [hs, h]
    simp
  · have h := get_stoich_ignores_trailing ['2'] ['3'] ['F', 'e']
      (by decide) (by decide) (by decide)
    have hs : ("Al2Cu3Fe" : String) =
        ⟨'A' :: 'l' :: (['2'] ++ 'C' :: 'u' :: (['3'] ++ ['F', 'e']))⟩ := by decide
    have e1 : digitsVal ['2'] = 2 := by decide
    have e2 : digitsVal ['3'] = 3 := by decide
    rw [hs, h]
    simp [e1, e2]

/-- C10: `"Al0Cu0"` matches with explicit zero counts and yields `(0.0, 0.0)`,
the same value as the no-match sentinel (here on `"Fe2O3"`), so the two cases
are indistinguishable; the demonstration loop's guard skips both without
calling `enthalpy_of_formation`, leaving the point list unchanged. -/
theorem get_stoich_zero_sentinel_ambiguity :
    get_stoich "Al0Cu0" = (0, 0) ∧ get_stoich "Fe2O3" = (0, 0) ∧
    (∀ energy_Al energy_Cu points energy,
      alcu_point energy_Al energy_Cu points "Al0Cu0" energy = some points) ∧
    (∀ energy_Al energy_Cu points energy,
      alcu_point energy_Al energy_Cu points "Fe2O3" energy = some points) := by
  have hz : get_stoich "Al0Cu0" = (0, 0) := by
    have h : reMatchAlCu "Al0Cu0".data = some (['0'], ['0']) := by decide
    have e : digitsVal ['0'] = 0 := by decide
    unfold get_stoich
    rw [h]
    simp [e]
  have hf : get_stoich "Fe2O3" = (0, 0) := by
    have h : reMatchAlCu "Fe2O3".data = none := by decide
    unfold get_stoich
    rw [h]
  refine ⟨hz, hf, ?_, ?_⟩
  · intro energy_Al energy_Cu points energy
    unfold alcu_point
    rw [hz]
    simp
  · intro energy_Al energy_Cu points energy
    unfold alcu_point
    rw [hf]
    simp

section ErfLemmas

/-- The Gaussian integrand is integrable on the whole line. -/
lemma integrable_exp_neg_sq : Integrable (fun t : ℝ => Real.exp (-t ^ 2)) := by
  simpa using integrable_exp_neg_mul_sq one_pos

/-- The Gaussian integrand is interval integrable between any bounds. -/
lemma intervalIntegrable_exp_neg_sq (a b : ℝ) :
    IntervalIntegrable (fun t : ℝ => Real.exp (-t ^ 2)) volume a b :=
  integrable_exp_neg_sq.intervalIntegrable

/-- The antiderivative of the Gaussian integrand is strictly increasing. -/
lemma integral_exp_neg_sq_lt (x y : ℝ) (hxy : x < y) :
    (∫ t in (0 : ℝ)..x, Real.exp (-t ^ 2)) < ∫ t in (0 : ℝ)..y, Real.exp (-t ^ 2) := by
  have key : (∫ t in (0 : ℝ)..y, Real.exp (-t ^ 2)) - ∫ t in (0 : ℝ)..x, Real.exp (-t ^ 2)
      = ∫ t in x..y, Real.exp (-t ^ 2) :=
    integral_interval_sub_left (intervalIntegrable_exp_neg_sq 0 y)
      (intervalIntegrable_exp_neg_sq 0 x)
  have pos : 0 < ∫ t in x..y, Real.exp (-t ^ 2) :=
    intervalIntegral_pos_of_pos (intervalIntegrable_exp_neg_sq x y)
      (fun t => Real.exp_pos _) hxy
  linarith

/-- Upper bound on the incomplete Gaussian integral by the half-line value. -/
lemma integral_exp_neg_sq_le (x : ℝ) :
    (∫ t in (0 : ℝ)..x, Real.exp (-t ^ 2)) ≤ Real.sqrt π / 2 := by
  rcases le_total x 0 with hx | hx
  · have hsymm : (∫ t in (0 : ℝ)..x, Real.exp (-t ^ 2))
        = - ∫ t in x..(0 : ℝ), Real.exp (-t ^ 2) := integral_symm x 0
    have hnn : 0 ≤ ∫ t in x..(0 : ℝ), Real.exp (-t ^ 2) :=
      integral_nonneg hx (fun u _ => (Real.exp_pos _).le)
    have : (0 : ℝ) ≤ Real.sqrt π / 2 := by positivity
    linarith
  · have heq : (∫ t in (0 : ℝ)..x, Real.exp (-t ^ 2))
        = ∫ t in Set.Ioc (0 : ℝ) x, Real.exp (-t ^ 2) := integral_of_le hx
    have hmono : (∫ t in Set.Ioc (0 : ℝ) x, Real.exp (-t ^ 2))
        ≤ ∫ t in Set.Ioi (0 : ℝ), Real.exp (-t ^ 2) :=
      setIntegral_mono_set integrable_exp_neg_sq.integrableOn
        (Filter.Eventually.of_forall fun t => (Real.exp_pos _).le)
        (Set.Ioc_subset_Ioi_self).eventuallyLE
    have hval : (∫ t in Set.Ioi (0 : ℝ), Real.exp (-t ^ 2)) = Real.sqrt π / 2 := by
      simpa using integral_gaussian_Ioi 1
    rw [heq]
    rw [hval] at hmono
    exact hmono

/-- The incomplete Gaussian integral is odd. -/
lemma integral_exp_neg_sq_neg (x : ℝ) :
    (∫ t in (0 : ℝ)..(-x), Real.exp (-t ^ 2))
      = - ∫ t in (0 : ℝ)..x, Real.exp (-t ^ 2) := by
  have h := integral_comp_neg (a := 0) (b := -x) (fun t : ℝ => Real.exp (-t ^ 2))
  simp only [neg_neg, neg_sq, neg_zero] at h
  rw [h, integral_symm]

/-- Lower bound on the incomplete Gaussian integral. -/
lemma neg_le_integral_exp_neg_sq (x : ℝ) :
    -(Real.sqrt π / 2) ≤ ∫ t in (0 : ℝ)..x, Real.exp (-t ^ 2) := by
  have h := integral_exp_neg_sq_le (-x)
  rw [integral_exp_neg_sq_neg x] at h
  linarith

/-- The error function is strictly monotone. -/
lemma erf_strictMono : StrictMono erf := by
  intro x y hxy
  have hc : 0 < 2 / Real.sqrt π := by positivity
  exact mul_lt_mul_of_pos_left (integral_exp_neg_sq_lt x y hxy) hc

/-- The error function takes values in `[-1, 1]`. -/
lemma erf_mem_Icc (x : ℝ) : -1 ≤ erf x ∧ erf x ≤ 1 := by
  have hπ : (0 : ℝ) < Real.sqrt π := Real.sqrt_pos.mpr Real.pi_pos
  have hc : 0 ≤ 2 / Real.sqrt π := by positivity
  have hup := integral_exp_neg_sq_le x
  have hlo := neg_le_integral_exp_neg_sq x
  have hone : 2 / Real.sqrt π * (Real.sqrt π / 2) = 1 := by
    field_simp
  constructor
  · have := mul_le_mul_of_nonneg_left hlo hc
    rw [mul_neg, hone] at this
    exact this
  · have := mul_le_mul_of_nonneg_left hup hc
    rw [hone] at this
    exact this

/-- The error function vanishes at zero. -/
lemma erf_zero : erf 0 = 0 := by
  unfold erf
  rw [integral_same, mul_zero]

end ErfLemmas

/-- C6: whenever `sigma > 0`, the value computed by `probability_improvement`
lies in the closed interval `[0, 1]`. -/
theorem probability_improvement_mem_unit (mean sigma baseline p : ℝ) (hs : 0 < sigma)
    (hp : probability_improvement mean sigma baseline = some p) : 0 ≤ p ∧ p ≤ 1 := by
  have hden : sigma * Real.sqrt 2 ≠ 0 := by positivity
  unfold probability_improvement pyDiv at hp
  rw [if_neg hden] at hp
  simp only [Option.map_some', Option.some.injEq] at hp
  obtain ⟨hlo, hup⟩ := erf_mem_Icc ((mean - baseline) / (sigma * Real.sqrt 2))
  constructor
  · rw [← hp]; linarith
  · rw [← hp]; linarith

/-- Witness for C6 at `mean = 0`, `sigma = 1`, `baseline = 0`, where the
computed probability is `1/2`. -/
theorem probability_improvement_mem_unit_check : (0 : ℝ) ≤ 1 / 2 ∧ (1 / 2 : ℝ) ≤ 1 := by
  have hden : (1 : ℝ) * Real.sqrt 2 ≠ 0 := by positivity
  have hp : probability_improvement 0 1 0 = some (1 / 2) := by
    unfold probability_improvement pyDiv
    rw [if_neg hden]
    simp only [Option.map_some', Option.some.injEq, sub_zero, zero_div, erf_zero]
    norm_num
  exact probability_improvement_mem_unit 0 1 0 (1 / 2) one_pos hp

/-- C7: for fixed `sigma > 0`, the improvement probability is strictly
increasing in `mean` (fixed `baseline`) and strictly decreasing in `baseline`
(fixed `mean`). -/
theorem probability_improvement_monotone (sigma : ℝ) (hs : 0 < sigma) :
    (∀ b m₁ m₂ p₁ p₂, m₁ < m₂ →
      probability_improvement m₁ sigma b = some p₁ →
      probability_improvement m₂ sigma b = some p₂ → p₁ < p₂) ∧
    (∀ m b₁ b₂ q₁ q₂, b₁ < b₂ →
      probability_improvement m sigma b₁ = some q₁ →
      probability_improvement m sigma b₂ = some q₂ → q₂ < q₁) := by
  have hden : 0 < sigma * Real.sqrt 2 := by positivity
  have main : ∀ a₁ a₂ p₁ p₂ : ℝ, a₁ < a₂ →
      some (0.5 * (1 + erf (a₁ / (sigma * Real.sqrt 2)))) = some p₁ →
      some (0.5 * (1 + erf (a₂ / (sigma * Real.sqrt 2)))) = some p₂ → p₁ < p₂ := by
    intro a₁ a₂ p₁ p₂ ha h₁ h₂
    simp only [Option.some.injEq] at h₁ h₂
    have harg : a₁ / (sigma * Real.sqrt 2) < a₂ / (sigma * Real.sqrt 2) := by gcongr
    have := erf_strictMono harg
    rw [← h₁, ← h₂]
    linarith
  constructor
  · intro b m₁ m₂ p₁ p₂ hm h₁ h₂
    unfold probability_improvement pyDiv at h₁ h₂
    rw [if_neg hden.ne'] at h₁ h₂
    simp only [Option.map_some'] at h₁ h₂
    exact main (m₁ - b) (m₂ - b) p₁ p₂ (by linarith) h₁ h₂
  · intro m b₁ b₂ q₁ q₂ hb h₁ h₂
    unfold probability_improvement pyDiv at h₁ h₂
    rw [if_neg hden.ne'] at h₁ h₂
    simp only [Option.map_some'] at h₁ h₂
    exact main (m - b₂) (m - b₁) q₂ q₁ (by linarith) h₂ h₁

/-- Witness for C7 comparing means `0 < 1` at `sigma = 1`, `baseline = 0`. -/
theorem probability_improvement_monotone_check :
    (0.5 * (1 + erf ((0 - 0) / (1 * Real.sqrt 2))) : ℝ)
      < 0.5 * (1 + erf ((1 - 0) / (1 * Real.sqrt 2))) := by
  have hden : (1 : ℝ) * Real.sqrt 2 ≠ 0 := by positivity
  refine (probability_improvement_monotone 1 one_pos).1 0 0 1 _ _ one_pos ?_ ?_ <;>
    · unfold probability_improvement pyDiv
      rw [if_neg hden]
      rfl

section GaussianTail

/-- Value of the Gaussian integral over the positive half-line. -/
lemma integral_Ioi_exp_neg_sq :
    (∫ t in Set.Ioi (0 : ℝ), Real.exp (-t ^ 2)) = Real.sqrt π / 2 := by
  simpa using integral_gaussian_Ioi 1

/-- Normalisation constant of the normal density with variance `sigma ^ 2`. -/
lemma sqrt_two_pi_var (sigma : ℝ) (hs : 0 < sigma) :
    Real.sqrt (2 * π * sigma ^ 2) = sigma * Real.sqrt 2 * Real.sqrt π := by
  rw [show 2 * π * sigma ^ 2 = sigma ^ 2 * (2 * π) by ring,
    Real.sqrt_mul (sq_nonneg sigma), Real.sqrt_sq hs.le,
    Real.sqrt_mul (by norm_num : (0 : ℝ) ≤ 2)]
  ring

/-- The normal density with variance `sigma ^ 2`, written through the scaled
Gaussian integrand. -/
lemma gaussianPDFReal_eq (mean sigma : ℝ) (_hs : 0 < sigma) (x : ℝ) :
    ProbabilityTheory.gaussianPDFReal mean ⟨sigma ^ 2, sq_nonneg sigma⟩ x
      = (Real.sqrt (2 * π * sigma ^ 2))⁻¹
          * Real.exp (-((x - mean) / (sigma * Real.sqrt 2)) ^ 2) := by
  have h2 : -((x - mean) / (sigma * Real.sqrt 2)) ^ 2 = -(x - mean) ^ 2 / (2 * sigma ^ 2) := by
    rw [div_pow, mul_pow, Real.sq_sqrt (by norm_num : (0 : ℝ) ≤ 2)]
    ring
  simp only [ProbabilityTheory.gaussianPDFReal, NNReal.coe_mk]
  rw [h2]

/-- The normal density integrated over `b..T`, via the substitution
`t = (x - mean) / (sigma * sqrt 2)`. -/
lemma gaussian_interval_integral (mean sigma : ℝ) (hs : 0 < sigma) (b T : ℝ) :
    (∫ x in b..T, ProbabilityTheory.gaussianPDFReal mean ⟨sigma ^ 2, sq_nonneg sigma⟩ x)
      = (Real.sqrt π)⁻¹ *
        ((∫ t in (0 : ℝ)..((T - mean) / (sigma * Real.sqrt 2)), Real.exp (-t ^ 2))
          - ∫ t in (0 : ℝ)..((b - mean) / (sigma * Real.sqrt 2)), Real.exp (-t ^ 2)) := by
  have hc : sigma * Real.sqrt 2 ≠ 0 := by positivity
  have h1 : (∫ x in b..T, ProbabilityTheory.gaussianPDFReal mean ⟨sigma ^ 2, sq_nonneg sigma⟩ x)
      = ∫ x in b..T, (Real.sqrt (2 * π * sigma ^ 2))⁻¹
          * Real.exp (-((x - mean) / (sigma * Real.sqrt 2)) ^ 2) := by
    apply integral_congr
    intro x hx
    exact gaussianPDFReal_eq mean sigma hs x
  rw [h1, integral_const_mul]
  have h2 : (∫ x in b..T, Real.exp (-((x - mean) / (sigma * Real.sqrt 2)) ^ 2))
      = ∫ y in b - mean..T - mean, Real.exp (-(y / (sigma * Real.sqrt 2)) ^ 2) :=
    integral_comp_sub_right (fun y => Real.exp (-(y / (sigma * Real.sqrt 2)) ^ 2)) mean
  have h3 : (∫ y in b - mean..T - mean, Real.exp (-(y / (sigma * Real.sqrt 2)) ^ 2))
      = (sigma * Real.sqrt 2) •
          ∫ t in (b - mean) / (sigma * Real.sqrt 2)..(T - mean) / (sigma * Real.sqrt 2),
            Real.exp (-t ^ 2) :=
    integral_comp_div (fun t => Real.exp (-t ^ 2)) hc
  have h4 : (∫ t in (b - mean) / (sigma * Real.sqrt 2)..(T - mean) / (sigma * Real.sqrt 2),
        Real.exp (-t ^ 2))
      = (∫ t in (0 : ℝ)..((T - mean) / (sigma * Real.sqrt 2)), Real.exp (-t ^ 2))
        - ∫ t in (0 : ℝ)..((b - mean) / (sigma * Real.sqrt 2)), Real.exp (-t ^ 2) :=
    (integral_interval_sub_left (intervalIntegrable_exp_neg_sq _ _)
      (intervalIntegrable_exp_neg_sq _ _)).symm
  rw [h2, h3, h4, smul_eq_mul, sqrt_two_pi_var sigma hs]
  have hπ : Real.sqrt π ≠ 0 := (Real.sqrt_pos.mpr Real.pi_pos).ne'
  have hs2 : Real.sqrt 2 ≠ 0 := by positivity
  field_simp
  ring

/-- The normal tail probability integral over `Ioi b`, as a limit of the
interval integrals. -/
lemma gaussian_tail_integral (mean sigma : ℝ) (hs : 0 < sigma) (b : ℝ) :
    (∫ x in Set.Ioi b, ProbabilityTheory.gaussianPDFReal mean ⟨sigma ^ 2, sq_nonneg sigma⟩ x)
      = (Real.sqrt π)⁻¹ *
          (Real.sqrt π / 2
            - ∫ t in (0 : ℝ)..((b - mean) / (sigma * Real.sqrt 2)), Real.exp (-t ^ 2)) := by
  have hc : (0 : ℝ) < sigma * Real.sqrt 2 := by positivity
  have h1 : Filter.Tendsto (fun T => ∫ x in b..T,
        ProbabilityTheory.gaussianPDFReal mean ⟨sigma ^ 2, sq_nonneg sigma⟩ x)
      Filter.atTop (nhds (∫ x in Set.Ioi b,
        ProbabilityTheory.gaussianPDFReal mean ⟨sigma ^ 2, sq_nonneg sigma⟩ x)) :=
    intervalIntegral_tendsto_integral_Ioi b
      (ProbabilityTheory.integrable_gaussianPDFReal mean _).integrableOn Filter.tendsto_id
  have hz : Filter.Tendsto (fun T : ℝ => (T - mean) / (sigma * Real.sqrt 2))
      Filter.atTop Filter.atTop := by
    apply Filter.Tendsto.atTop_div_const hc
    simpa [sub_eq_add_neg] using
      Filter.tendsto_atTop_add_const_right Filter.atTop (-mean) Filter.tendsto_id
  have hI : Filter.Tendsto (fun T : ℝ => ∫ t in (0 : ℝ)..((T - mean) / (sigma * Real.sqrt 2)),
        Real.exp (-t ^ 2)) Filter.atTop (nhds (Real.sqrt π / 2)) := by
    have h := intervalIntegral_tendsto_integral_Ioi 0 integrable_exp_neg_sq.integrableOn hz
    rwa [integral_Ioi_exp_neg_sq] at h
  have h2 : Filter.Tendsto (fun T => ∫ x in b..T,
        ProbabilityTheory.gaussianPDFReal mean ⟨sigma ^ 2, sq_nonneg sigma⟩ x)
      Filter.atTop (nhds ((Real.sqrt π)⁻¹ *
        (Real.sqrt π / 2
          - ∫ t in (0 : ℝ)..((b - mean) / (sigma * Real.sqrt 2)), Real.exp (-t ^ 2)))) := by
    have h3 := (hI.sub (tendsto_const_nhds
      (x := ∫ t in (0 : ℝ)..((b - mean) / (sigma * Real.sqrt 2)), Real.exp (-t ^ 2))
      (f := Filter.atTop))).const_mul (Real.sqrt π)⁻¹
    apply h3.congr
    intro T
    exact (gaussian_interval_integral mean sigma hs b T).symm
  exact tendsto_nhds_unique h1 h2

/-- The measure of `Ioi b` under the Gaussian measure with variance
`sigma ^ 2`, as a real number, is the integral of the density. -/
lemma gaussianReal_Ioi_toReal (mean sigma : ℝ) (hs : 0 < sigma) (b : ℝ) :
    (ProbabilityTheory.gaussianReal mean ⟨sigma ^ 2, sq_nonneg sigma⟩ (Set.Ioi b)).toReal
      = ∫ x in Set.Ioi b,
          ProbabilityTheory.gaussianPDFReal mean ⟨sigma ^ 2, sq_nonneg sigma⟩ x := by
  have hv : (⟨sigma ^ 2, sq_nonneg sigma⟩ : ℝ≥0) ≠ 0 :=
    NNReal.coe_ne_zero.mp (by simp only [NNReal.coe_mk]; positivity)
  rw [ProbabilityTheory.gaussianReal_apply_eq_integral mean hv (Set.Ioi b)]
  exact ENNReal.toReal_ofReal (setIntegral_nonneg measurableSet_Ioi
    fun x _ => ProbabilityTheory.gaussianPDFReal_nonneg mean _ x)

end GaussianTail

/-- C2: for `sigma > 0`, `probability_improvement` returns exactly the spec
formula `0.5 * (1 + erf((mean - baseline) / (sigma * sqrt 2)))`, and that
value is the probability that a normally distributed random variable with
mean `mean` and standard deviation `sigma` exceeds `baseline`. -/
theorem probability_improvement_normal (mean sigma baseline : ℝ) (hs : 0 < sigma) :
    probability_improvement mean sigma baseline
      = some (spec_probability_of_improvement mean sigma baseline) ∧
    spec_probability_of_improvement mean sigma baseline
      = (ProbabilityTheory.gaussianReal mean ⟨sigma ^ 2, sq_nonneg sigma⟩
          (Set.Ioi baseline)).toReal := by
  have hden : sigma * Real.sqrt 2 ≠ 0 := by positivity
  constructor
  · unfold probability_improvement pyDiv spec_probability_of_improvement
    rw [if_neg hden]
    rfl
  · rw [gaussianReal_Ioi_toReal mean sigma hs baseline,
      gaussian_tail_integral mean sigma hs baseline]
    have hneg : (baseline - mean) / (sigma * Real.sqrt 2)
        = -((mean - baseline) / (sigma * Real.sqrt 2)) := by ring
    rw [hneg, integral_exp_neg_sq_neg]
    unfold spec_probability_of_improvement erf
    have hπ : Real.sqrt π ≠ 0 := (Real.sqrt_pos.mpr Real.pi_pos).ne'
    field_simp
    ring

/-- Witness for C2 at `mean = 0`, `sigma = 1`, `baseline = 0`. -/
theorem probability_improvement_normal_check :
    probability_improvement 0 1 0 = some (spec_probability_of_improvement 0 1 0) ∧
    spec_probability_of_improvement 0 1 0
      = (ProbabilityTheory.gaussianReal 0 ⟨(1 : ℝ) ^ 2, sq_nonneg 1⟩ (Set.Ioi 0)).toReal :=
  probability_improvement_normal 0 1 0 one_pos
